import Mathlib

/-!
Verification of the CPU triangle rasterizer (`triangle_rasterizer.cpp`).

Shallow embedding notes:
* `Uint32` pixel/color values are modelled as `ℕ` (with explicit `% 2^32`-style
  channel arithmetic where it matters); C `int` values are modelled as `ℤ`.
* The C++ `float` arithmetic of the rasterizer is modelled by exact rational
  arithmetic (`ℚ`).  Every property proved below is either independent of the
  numeric values produced by the edge interpolation (control flow and loop
  bounds are pure integer arithmetic in the source), or concerns points where
  the float computation is exact (`t = 0`, `t = 1`, convex-range bounds with
  representable integer endpoints).
* A C cast `(int)f` / `(uint8_t)f` truncates toward zero; `ftrunc` models it,
  with a final reduction modulo 256 for the byte-sized channels.
* The pixel buffer `Uint32* pixels` is modelled as a total function `ℕ → ℕ`;
  `setPixel` writes index `y * width + x` exactly as the source does.
* The scanline fill mutates the screen through a sequence of `setPixel` calls;
  we materialize that sequence as an explicit write trace
  (`fillTriangleWrites`) and define `fillTriangle` as folding `setPixel` over
  the trace, which is the order the source issues the calls in.
-/

/-- A screen: dimensions plus the linear pixel buffer (`drawScreen` fields that
the rasterizing core reads or writes). -/
@[ext] structure Screen where
  width : ℤ
  height : ℤ
  pixels : ℕ → ℕ

/-- `struct Vertex { int x; int y; Uint32 color; }`. -/
structure Vertex where
  x : ℤ
  y : ℤ
  color : ℕ
deriving DecidableEq, Repr

/-- The named palette constant `RED = 0xFF0000FF`. -/
def RED : ℕ := 0xFF0000FF

/-- The named palette constant `GREEN = 0x00FF00FF`. -/
def GREEN : ℕ := 0x00FF00FF

/-- The named palette constant `BLUE = 0x0000FFFF`. -/
def BLUE : ℕ := 0x0000FFFF

/-- The `drawScreen(500, 500)` result as far as the core sees it: a 500×500
buffer with every pixel initialized to opaque black `0x000000FF`. -/
def initialScreen : Screen := ⟨500, 500, fun _ => 0x000000FF⟩

/-- `setPixel`: bounds-checked single-pixel write at linear index
`y * width + x` (source lines 176–182). -/
def setPixel (s : Screen) (x y : ℤ) (color : ℕ) : Screen :=
  if x < 0 ∨ x ≥ s.width ∨ y < 0 ∨ y ≥ s.height then s
  else { s with pixels := fun i => if i = (y * s.width + x).toNat then color else s.pixels i }

/-- Truncation toward zero of a rational, the behavior of a C cast from a
floating-point value to an integer type. -/
def ftrunc (q : ℚ) : ℤ := q.num.tdiv q.den

/-- Reduction of a (possibly negative) integer to an unsigned byte, the final
width reduction of a C store into a `uint8_t`. -/
def toByte (z : ℤ) : ℕ := (z % 256).toNat

/-- Channel extraction `(c >> 24) & 0xFF`. -/
def chR (c : ℕ) : ℕ := c / 2 ^ 24 % 256

/-- Channel extraction `(c >> 16) & 0xFF`. -/
def chG (c : ℕ) : ℕ := c / 2 ^ 16 % 256

/-- Channel extraction `(c >> 8) & 0xFF`. -/
def chB (c : ℕ) : ℕ := c / 2 ^ 8 % 256

/-- Channel extraction `c & 0xFF`. -/
def chA (c : ℕ) : ℕ := c % 256

/-- Packing `(r << 24) | (g << 16) | (b << 8) | a`; for byte-sized channels the
bit-or of the disjoint shifted fields equals the sum below. -/
def packColor (r g b a : ℕ) : ℕ := r * 2 ^ 24 + g * 2 ^ 16 + b * 2 ^ 8 + a

/-- One channel of `interpolateColor`: `(uint8_t)(c1 + (c2 - c1) * t)` where
`c1, c2` are the extracted byte channels (subtraction happens in `int`). -/
def interpByte (b1 b2 : ℕ) (t : ℚ) : ℕ :=
  toByte (ftrunc ((b1 : ℚ) + (((b2 : ℤ) - (b1 : ℤ) : ℤ) : ℚ) * t))

/-- `interpolateColor(color0, color1, t)` (source lines 188–211): extract the
four byte channels of each color, linearly interpolate each channel with
truncating conversion back to a byte, and repack. -/
def interpolateColor (color0 color1 : ℕ) (t : ℚ) : ℕ :=
  packColor (interpByte (chR color0) (chR color1) t)
    (interpByte (chG color0) (chG color1) t)
    (interpByte (chB color0) (chB color1) t)
    (interpByte (chA color0) (chA color1) t)

/-! ### The Bresenham line rasterizer (source lines 219–316) -/

/-- The loop `for (int x = x0; x <= x1; x++)` of `bresenhamLow`, unrolled over
the iteration count: state is `(x, y, D, currentStep)`; each iteration emits a
vertex colored by the progress fraction `currentStep / totalSteps` and then
performs the Bresenham decision update. -/
def bresLowGo (c0 c1 : ℕ) (yi dy dx tot : ℤ) : ℕ → ℤ → ℤ → ℤ → ℤ → List Vertex
  | 0, _, _, _, _ => []
  | n + 1, x, y, D, step =>
    ⟨x, y, interpolateColor c0 c1 (if 0 < tot then (step : ℚ) / (tot : ℚ) else 0)⟩ ::
      (if 0 < D then bresLowGo c0 c1 yi dy dx tot n (x + 1) (y + yi) (D + 2 * (dy - dx)) (step + 1)
       else bresLowGo c0 c1 yi dy dx tot n (x + 1) y (D + 2 * dy) (step + 1))

/-- `bresenhamLow` (source lines 219–257): shallow-slope stepper along x. -/
def bresenhamLow (x0 y0 : ℤ) (c0 : ℕ) (x1 y1 : ℤ) (c1 : ℕ) : List Vertex :=
  let dx := x1 - x0
  let dy0 := y1 - y0
  let yi : ℤ := if dy0 < 0 then -1 else 1
  let dy := if dy0 < 0 then -dy0 else dy0
  bresLowGo c0 c1 yi dy dx dx (x1 - x0 + 1).toNat x0 y0 (2 * dy - dx) 0

/-- The loop `for (int y = y0; y <= y1; y++)` of `bresenhamHigh`, unrolled
over the iteration count: state is `(y, x, D, currentStep)`. -/
def bresHighGo (c0 c1 : ℕ) (xi dx dy tot : ℤ) : ℕ → ℤ → ℤ → ℤ → ℤ → List Vertex
  | 0, _, _, _, _ => []
  | n + 1, y, x, D, step =>
    ⟨x, y, interpolateColor c0 c1 (if 0 < tot then (step : ℚ) / (tot : ℚ) else 0)⟩ ::
      (if 0 < D then bresHighGo c0 c1 xi dx dy tot n (y + 1) (x + xi) (D + 2 * (dx - dy)) (step + 1)
       else bresHighGo c0 c1 xi dx dy tot n (y + 1) x (D + 2 * dx) (step + 1))

/-- `bresenhamHigh` (source lines 260–298): steep-slope stepper along y. -/
def bresenhamHigh (x0 y0 : ℤ) (c0 : ℕ) (x1 y1 : ℤ) (c1 : ℕ) : List Vertex :=
  let dy := y1 - y0
  let dx0 := x1 - x0
  let xi : ℤ := if dx0 < 0 then -1 else 1
  let dx := if dx0 < 0 then -dx0 else dx0
  bresHighGo c0 c1 xi dx dy dy (y1 - y0 + 1).toNat y0 x0 (2 * dx - dy) 0

/-- `bresenham` (source lines 301–316): pick the dominant-axis stepper and
normalize the endpoint order (colors travel with their endpoints). -/
def bresenham (x0 y0 : ℤ) (c0 : ℕ) (x1 y1 : ℤ) (c1 : ℕ) : List Vertex :=
  if (y1 - y0).natAbs < (x1 - x0).natAbs then
    if x0 > x1 then bresenhamLow x1 y1 c1 x0 y0 c0
    else bresenhamLow x0 y0 c0 x1 y1 c1
  else
    if y0 > y1 then bresenhamHigh x1 y1 c1 x0 y0 c0
    else bresenhamHigh x0 y0 c0 x1 y1 c1

/-- `isCollinear` (source lines 404–409): the cross-product area test. -/
def isCollinear (v0 v1 v2 : Vertex) : Bool :=
  (v1.x - v0.x) * (v2.y - v0.y) - (v2.x - v0.x) * (v1.y - v0.y) == 0

/-! ### Basic channel arithmetic lemmas -/

theorem chR_lt (c : ℕ) : chR c < 256 := Nat.mod_lt _ (by norm_num)

theorem chG_lt (c : ℕ) : chG c < 256 := Nat.mod_lt _ (by norm_num)

theorem chB_lt (c : ℕ) : chB c < 256 := Nat.mod_lt _ (by norm_num)

theorem chA_lt (c : ℕ) : chA c < 256 := Nat.mod_lt _ (by norm_num)

theorem toByte_lt (z : ℤ) : toByte z < 256 := by
  unfold toByte
  omega

theorem interpByte_lt (b1 b2 : ℕ) (t : ℚ) : interpByte b1 b2 t < 256 :=
  toByte_lt _

/-- Repacking the four extracted channels of a 32-bit color gives the color
back. -/
theorem packColor_channels (c : ℕ) (h : c < 2 ^ 32) :
    packColor (chR c) (chG c) (chB c) (chA c) = c := by
  unfold packColor chR chG chB chA
  simp only [show (2 : ℕ) ^ 8 = 256 from by norm_num,
    show (2 : ℕ) ^ 16 = 65536 from by norm_num,
    show (2 : ℕ) ^ 24 = 16777216 from by norm_num]
  have f1 : 256 * (c / 256) + c % 256 = c := Nat.div_add_mod c 256
  have e2 : c / 256 / 256 = c / 65536 := by
    rw [Nat.div_div_eq_div_mul]
  have e3 : c / 65536 / 256 = c / 16777216 := by
    rw [Nat.div_div_eq_div_mul]
  have f2 : 256 * (c / 65536) + c / 256 % 256 = c / 256 := by
    rw [← e2]
    exact Nat.div_add_mod (c / 256) 256
  have f3 : 256 * (c / 16777216) + c / 65536 % 256 = c / 65536 := by
    rw [← e3]
    exact Nat.div_add_mod (c / 65536) 256
  have f4 : c / 16777216 % 256 = c / 16777216 :=
    Nat.mod_eq_of_lt (Nat.div_lt_of_lt_mul (lt_of_lt_of_eq h (by norm_num)))
  rw [f4]
  linarith [f1, f2, f3]

theorem chR_packColor (r g b a : ℕ) (hr : r < 256) (hg : g < 256) (hb : b < 256)
    (ha : a < 256) : chR (packColor r g b a) = r := by
  unfold packColor chR
  have hrest : g * 2 ^ 16 + b * 2 ^ 8 + a < 2 ^ 24 := by
    have h1 : g * 2 ^ 16 ≤ 255 * 2 ^ 16 := Nat.mul_le_mul_right _ (by omega)
    have h2 : b * 2 ^ 8 ≤ 255 * 2 ^ 8 := Nat.mul_le_mul_right _ (by omega)
    have h3 : a ≤ 255 := by omega
    calc g * 2 ^ 16 + b * 2 ^ 8 + a ≤ 255 * 2 ^ 16 + 255 * 2 ^ 8 + 255 := by
          exact Nat.add_le_add (Nat.add_le_add h1 h2) h3
      _ < 2 ^ 24 := by norm_num
  rw [show r * 2 ^ 24 + g * 2 ^ 16 + b * 2 ^ 8 + a =
      2 ^ 24 * r + (g * 2 ^ 16 + b * 2 ^ 8 + a) by ring]
  rw [Nat.mul_add_div (by norm_num), Nat.div_eq_of_lt hrest, Nat.add_zero]
  exact Nat.mod_eq_of_lt hr

theorem chG_packColor (r g b a : ℕ) (hr : r < 256) (hg : g < 256) (hb : b < 256)
    (ha : a < 256) : chG (packColor r g b a) = g := by
  unfold packColor chG
  have hrest : b * 2 ^ 8 + a < 2 ^ 16 := by
    have h2 : b * 2 ^ 8 ≤ 255 * 2 ^ 8 := Nat.mul_le_mul_right _ (by omega)
    have h3 : a ≤ 255 := by omega
    calc b * 2 ^ 8 + a ≤ 255 * 2 ^ 8 + 255 := Nat.add_le_add h2 h3
      _ < 2 ^ 16 := by norm_num
  rw [show r * 2 ^ 24 + g * 2 ^ 16 + b * 2 ^ 8 + a =
      2 ^ 16 * (256 * r + g) + (b * 2 ^ 8 + a) by ring]
  rw [Nat.mul_add_div (by norm_num), Nat.div_eq_of_lt hrest, Nat.add_zero]
  rw [Nat.mul_add_mod]
  exact Nat.mod_eq_of_lt hg

theorem chB_packColor (r g b a : ℕ) (hr : r < 256) (hg : g < 256) (hb : b < 256)
    (ha : a < 256) : chB (packColor r g b a) = b := by
  unfold packColor chB
  rw [show r * 2 ^ 24 + g * 2 ^ 16 + b * 2 ^ 8 + a =
      2 ^ 8 * (256 * (256 * r + g) + b) + a by ring]
  rw [Nat.mul_add_div (by norm_num), Nat.div_eq_of_lt (by omega : a < 2 ^ 8), Nat.add_zero]
  rw [Nat.mul_add_mod]
  exact Nat.mod_eq_of_lt hb

theorem chA_packColor (r g b a : ℕ) (hr : r < 256) (hg : g < 256) (hb : b < 256)
    (ha : a < 256) : chA (packColor r g b a) = a := by
  unfold packColor chA
  rw [show r * 2 ^ 24 + g * 2 ^ 16 + b * 2 ^ 8 + a =
      256 * (65536 * r + 256 * g + b) + a by ring]
  rw [Nat.mul_add_mod]
  exact Nat.mod_eq_of_lt ha

/-- `ftrunc` of an integer-valued rational is that integer. -/
theorem ftrunc_intCast (z : ℤ) : ftrunc (z : ℚ) = z := by
  unfold ftrunc
  simp [Rat.num_intCast, Rat.den_intCast]

/-- Truncation toward zero agrees with the floor on nonnegative rationals. -/
theorem ftrunc_eq_floor (q : ℚ) (h : 0 ≤ q) : ftrunc q = ⌊q⌋ := by
  unfold ftrunc
  rw [Rat.floor_def]
  exact Int.tdiv_eq_ediv (Rat.num_nonneg.mpr h) (by positivity)

theorem interpByte_zero (b1 b2 : ℕ) (h : b1 < 256) : interpByte b1 b2 0 = b1 := by
  unfold interpByte
  have h1 : ((b1 : ℚ) + (((b2 : ℤ) - (b1 : ℤ) : ℤ) : ℚ) * 0) = ((b1 : ℤ) : ℚ) := by
    push_cast; ring
  rw [h1, ftrunc_intCast]
  unfold toByte
  omega

theorem interpByte_one (b1 b2 : ℕ) (h : b2 < 256) : interpByte b1 b2 1 = b2 := by
  unfold interpByte
  have h1 : ((b1 : ℚ) + (((b2 : ℤ) - (b1 : ℤ) : ℤ) : ℚ) * 1) = ((b2 : ℤ) : ℚ) := by
    push_cast; ring
  rw [h1, ftrunc_intCast]
  unfold toByte
  omega

theorem interpolateColor_zero (A B : ℕ) (hA : A < 2 ^ 32) : interpolateColor A B 0 = A := by
  unfold interpolateColor
  rw [interpByte_zero _ _ (chR_lt A), interpByte_zero _ _ (chG_lt A),
    interpByte_zero _ _ (chB_lt A), interpByte_zero _ _ (chA_lt A)]
  exact packColor_channels A hA

theorem interpolateColor_one (A B : ℕ) (hB : B < 2 ^ 32) : interpolateColor A B 1 = B := by
  unfold interpolateColor
  rw [interpByte_one _ _ (chR_lt B), interpByte_one _ _ (chG_lt B),
    interpByte_one _ _ (chB_lt B), interpByte_one _ _ (chA_lt B)]
  exact packColor_channels B hB

/-- Claim C5: `interpolateColor(A, B, 0.0) = A` and `interpolateColor(A, B, 1.0) = B`
exactly, for all packed 32-bit colors `A` and `B`.  At `t = 0` and `t = 1` the
reference float arithmetic is exact, so the rational model coincides with it
bit-for-bit. -/
theorem interpolateColor_endpoints (A B : ℕ) (hA : A < 2 ^ 32) (hB : B < 2 ^ 32) :
    interpolateColor A B 0 = A ∧ interpolateColor A B 1 = B :=
  ⟨interpolateColor_zero A B hA, interpolateColor_one A B hB⟩

/-- Witness for C5 at the concrete colors `RED` and `GREEN`. -/
theorem interpolateColor_endpoints_witness :
    interpolateColor RED GREEN 0 = RED ∧ interpolateColor RED GREEN 1 = GREEN :=
  interpolateColor_endpoints RED GREEN (by norm_num [RED]) (by norm_num [GREEN])

/-- Claim C6: `isCollinear` returns `true` iff the exact signed-area expression
`(x1−x0)(y2−y0) − (x2−x0)(y1−y0)` is zero.  The embedded function is a pure
function of the three vertices. -/
theorem isCollinear_iff_area_zero (v0 v1 v2 : Vertex) :
    isCollinear v0 v1 v2 = true ↔
      (v1.x - v0.x) * (v2.y - v0.y) - (v2.x - v0.x) * (v1.y - v0.y) = 0 := by
  unfold isCollinear
  exact beq_iff_eq ..

/-- Claim C4: `setPixel` is a complete no-op out of bounds, and in bounds it
overwrites exactly the entry at `y * width + x` and nothing else. -/
theorem setPixel_spec (s : Screen) (x y : ℤ) (color : ℕ) :
    ((x < 0 ∨ x ≥ s.width ∨ y < 0 ∨ y ≥ s.height) → setPixel s x y color = s) ∧
    (0 ≤ x → x < s.width → 0 ≤ y → y < s.height →
      (setPixel s x y color).pixels ((y * s.width + x).toNat) = color ∧
      (∀ i : ℕ, i ≠ (y * s.width + x).toNat →
        (setPixel s x y color).pixels i = s.pixels i) ∧
      (setPixel s x y color).width = s.width ∧
      (setPixel s x y color).height = s.height) := by
  constructor
  · intro h
    unfold setPixel
    simp only [if_pos h]
  · intro hx0 hx1 hy0 hy1
    have hcond : ¬(x < 0 ∨ x ≥ s.width ∨ y < 0 ∨ y ≥ s.height) := by
      push_neg
      exact ⟨hx0, hx1, hy0, hy1⟩
    unfold setPixel
    rw [if_neg hcond]
    refine ⟨by simp, fun i hi => by simp [hi], rfl, rfl⟩

/-- Witness for C4: the out-of-bounds branch at `(-1, 3)` and the in-bounds
branch at `(3, 4)` on the initial 500×500 screen. -/
theorem setPixel_spec_witness :
    (setPixel initialScreen (-1) 3 RED = initialScreen) ∧
    (setPixel initialScreen 3 4 RED).pixels (((4 : ℤ) * initialScreen.width + 3).toNat) = RED := by
  refine ⟨(setPixel_spec initialScreen (-1) 3 RED).1 (by norm_num [initialScreen]), ?_⟩
  exact (((setPixel_spec initialScreen 3 4 RED).2 (by norm_num) (by norm_num [initialScreen])
    (by norm_num) (by norm_num [initialScreen])).1)

/-! ### Write traces

The fill engine mutates the screen through a sequence of `setPixel` calls.  We
materialize that sequence as an explicit list of `(x, y, color)` requests and
define the buffer mutation as the left fold of `setPixel` over it, which is
exactly the order in which the source issues the calls. -/

/-- A pixel-write request `(x, y, color)` as passed to `setPixel`. -/
abbrev Write := ℤ × ℤ × ℕ

/-- Perform a list of `setPixel` calls in order. -/
def applyWrites (s : Screen) (l : List Write) : Screen :=
  l.foldl (fun s w => setPixel s w.1 w.2.1 w.2.2) s

/-- Whether the `setPixel` call for write `w` lands on linear buffer index `i`
of a `W × H` screen (in-bounds target with matching index). -/
def hits (W H : ℤ) (i : ℕ) (w : Write) : Bool :=
  decide (0 ≤ w.1) && decide (w.1 < W) && decide (0 ≤ w.2.1) && decide (w.2.1 < H) &&
    decide ((w.2.1 * W + w.1).toNat = i)

/-- The color of the last write in `l` that lands on index `i`, if any. -/
def lastWriteColor (W H : ℤ) (i : ℕ) : List Write → Option ℕ
  | [] => none
  | w :: t =>
    match lastWriteColor W H i t with
    | some c => some c
    | none => if hits W H i w then some w.2.2 else none

theorem setPixel_width (s : Screen) (x y : ℤ) (c : ℕ) : (setPixel s x y c).width = s.width := by
  unfold setPixel
  split <;> rfl

theorem setPixel_height (s : Screen) (x y : ℤ) (c : ℕ) : (setPixel s x y c).height = s.height := by
  unfold setPixel
  split <;> rfl

theorem hits_iff (W H : ℤ) (i : ℕ) (w : Write) :
    hits W H i w = true ↔
      0 ≤ w.1 ∧ w.1 < W ∧ 0 ≤ w.2.1 ∧ w.2.1 < H ∧ (w.2.1 * W + w.1).toNat = i := by
  simp [hits, and_assoc]

theorem setPixel_pixels (s : Screen) (x y : ℤ) (c : ℕ) (i : ℕ) :
    (setPixel s x y c).pixels i = if hits s.width s.height i (x, y, c) then c else s.pixels i := by
  unfold setPixel
  by_cases hb : x < 0 ∨ x ≥ s.width ∨ y < 0 ∨ y ≥ s.height
  · rw [if_pos hb, if_neg]
    intro hh
    rw [hits_iff] at hh
    dsimp only at hh
    omega
  · rw [if_neg hb]
    push_neg at hb
    dsimp only
    by_cases hi : i = (y * s.width + x).toNat
    · rw [if_pos hi, if_pos (by rw [hits_iff]; exact ⟨hb.1, hb.2.1, hb.2.2.1, hb.2.2.2, hi.symm⟩)]
    · rw [if_neg hi, if_neg]
      intro hh
      rw [hits_iff] at hh
      exact hi hh.2.2.2.2.symm

theorem applyWrites_width (s : Screen) (l : List Write) :
    (applyWrites s l).width = s.width := by
  induction l generalizing s with
  | nil => rfl
  | cons w t ih =>
    show (applyWrites (setPixel s w.1 w.2.1 w.2.2) t).width = s.width
    rw [ih, setPixel_width]

theorem applyWrites_height (s : Screen) (l : List Write) :
    (applyWrites s l).height = s.height := by
  induction l generalizing s with
  | nil => rfl
  | cons w t ih =>
    show (applyWrites (setPixel s w.1 w.2.1 w.2.2) t).height = s.height
    rw [ih, setPixel_height]

/-- Pointwise characterization of a fold of `setPixel` calls: index `i` holds
the color of the last write that hits it, or its previous content. -/
theorem applyWrites_pixels (s : Screen) (l : List Write) (i : ℕ) :
    (applyWrites s l).pixels i =
      match lastWriteColor s.width s.height i l with
      | some c => c
      | none => s.pixels i := by
  induction l generalizing s with
  | nil => rfl
  | cons w t ih =>
    obtain ⟨x, y, c⟩ := w
    show (applyWrites (setPixel s x y c) t).pixels i = _
    rw [ih, setPixel_width, setPixel_height]
    have hcons : lastWriteColor s.width s.height i ((x, y, c) :: t) =
        match lastWriteColor s.width s.height i t with
        | some cc => some cc
        | none => if hits s.width s.height i (x, y, c) then some c else none := rfl
    rw [hcons]
    cases h : lastWriteColor s.width s.height i t with
    | some cc => simp only [h]
    | none =>
      simp only [h]
      rw [setPixel_pixels]
      by_cases hw : hits s.width s.height i (x, y, c) = true
      · rw [if_pos hw]
        simp [hw]
      · rw [if_neg hw]
        simp only [Bool.not_eq_true] at hw
        simp [hw]

theorem applyWrites_append (s : Screen) (l1 l2 : List Write) :
    applyWrites s (l1 ++ l2) = applyWrites (applyWrites s l1) l2 :=
  List.foldl_append ..

/-- If no write in `l` hits index `i`, that index keeps its content. -/
theorem applyWrites_miss (s : Screen) (l : List Write) (i : ℕ)
    (h : ∀ w ∈ l, hits s.width s.height i w = false) :
    (applyWrites s l).pixels i = s.pixels i := by
  rw [applyWrites_pixels]
  have hnone : lastWriteColor s.width s.height i l = none := by
    induction l with
    | nil => rfl
    | cons w t ih =>
      unfold lastWriteColor
      rw [ih fun w hw => h w (List.mem_cons_of_mem _ hw)]
      simp [h w (List.mem_cons_self ..)]
  rw [hnone]

/-! ### The triangle fill engine (source lines 338–401) -/

/-- The three pairwise compare-and-swaps at the top of `fillTriangle`
(source lines 341–343), producing the y-ascending reordering. -/
def sortByY (u0 u1 u2 : Vertex) : Vertex × Vertex × Vertex :=
  let a0 := if u0.y > u1.y then u1 else u0
  let a1 := if u0.y > u1.y then u0 else u1
  let b0 := if a0.y > u2.y then u2 else a0
  let b2 := if a0.y > u2.y then a0 else u2
  let c1 := if a1.y > b2.y then b2 else a1
  let c2 := if a1.y > b2.y then a1 else b2
  (b0, c1, c2)

/-- The horizontal span loop `for (int x = x_left; x <= x_right; x++)`
(source lines 391–399), unrolled over the iteration count: at each `x` the
fill either writes `color_left` (zero-width span) or the interpolated color at
`t_span = (x - x_left) / (x_right - x_left)`. -/
def spanGo (y xl xr : ℤ) (cl cr : ℕ) : ℕ → ℤ → List Write
  | 0, _ => []
  | n + 1, x =>
    (if xr = xl then (x, y, cl)
     else (x, y, interpolateColor cl cr (((x - xl : ℤ) : ℚ) / ((xr - xl : ℤ) : ℚ)))) ::
      spanGo y xl xr cl cr n (x + 1)

/-- All writes of the span loop on row `y` between `x_left` and `x_right`
inclusive. -/
def spanWrites (y xl xr : ℤ) (cl cr : ℕ) : List Write :=
  spanGo y xl xr cl cr (xr - xl + 1).toNat xl

/-- The per-scanline body of `fillTriangle` (source lines 373–399) for sorted
vertices `v0, v1, v2`, scanline `y`, and active short edge `vs → ve`: compute
the long-edge and short-edge x positions and colors, order them by x, and fill
the span. -/
def scanlineBody (v0 v2 : Vertex) (y : ℤ) (vs ve : Vertex) : List Write :=
  let tLong : ℚ := ((y - v0.y : ℤ) : ℚ) / ((v2.y - v0.y : ℤ) : ℚ)
  let xLong : ℚ := (v0.x : ℚ) + ((v2.x - v0.x : ℤ) : ℚ) * tLong
  let tShort : ℚ := ((y - vs.y : ℤ) : ℚ) / ((ve.y - vs.y : ℤ) : ℚ)
  let xShort : ℚ := (vs.x : ℚ) + ((ve.x - vs.x : ℤ) : ℚ) * tShort
  let colorLong := interpolateColor v0.color v2.color tLong
  let colorShort := interpolateColor vs.color ve.color tShort
  let xl := ftrunc (min xLong xShort)
  let xr := ftrunc (max xLong xShort)
  let cl := if xLong < xShort then colorLong else colorShort
  let cr := if xLong < xShort then colorShort else colorLong
  spanWrites y xl xr cl cr

/-- One iteration of the scan loop (source lines 349–399) for the sorted
vertices: classify the row as top half (`y < v1.y`, short edge `v0 → v1`) or
bottom half (short edge `v1 → v2`), skipping the row if the active half is
flat. -/
def scanlineWrites (v0 v1 v2 : Vertex) (y : ℤ) : List Write :=
  if y < v1.y then
    if v1.y = v0.y then [] else scanlineBody v0 v2 y v0 v1
  else
    if v2.y = v1.y then [] else scanlineBody v0 v2 y v1 v2

/-- The scan loop `for (int y = v0.y; y <= v2.y; y++)` over a row-trace
function, unrolled over the iteration count. -/
def scanWrites (f : ℤ → List Write) (y : ℤ) : ℕ → List Write
  | 0 => []
  | n + 1 => f y ++ scanWrites f (y + 1) n

/-- The complete ordered trace of `setPixel` requests issued by
`fillTriangle(screen, u0, u1, u2)`: sort the vertices by y, return without
writes if the triangle is flat (`v0.y == v2.y`), otherwise scan every row from
`v0.y` to `v2.y`. -/
def fillTriangleWrites (u0 u1 u2 : Vertex) : List Write :=
  let s := sortByY u0 u1 u2
  if s.1.y = s.2.2.y then []
  else scanWrites (scanlineWrites s.1 s.2.1 s.2.2) s.1.y (s.2.2.y - s.1.y + 1).toNat

/-- `fillTriangle` (source lines 338–401): issue the trace of bounds-checked
pixel writes against the screen. -/
def fillTriangle (s : Screen) (u0 u1 u2 : Vertex) : Screen :=
  applyWrites s (fillTriangleWrites u0 u1 u2)

/-- The caller-side gate of `main` (source lines 476–483): a vertex triple on
which `isCollinear` is true is rejected and never passed to `fillTriangle`. -/
def processTriangle (s : Screen) (u0 u1 u2 : Vertex) : Screen :=
  if isCollinear u0 u1 u2 then s else fillTriangle s u0 u1 u2

/-! ### Claim C7: zero-width spans -/

/-- Claim C7: on any scanline where the two truncated boundary positions
coincide (`x_left = x_right`), the span loop of `fillTriangle` issues exactly
one pixel write, at `x_left` with `color_left` — never zero, never two. -/
theorem spanWrites_zero_width (y xl xr : ℤ) (cl cr : ℕ) (h : xl = xr) :
    spanWrites y xl xr cl cr = [(xl, y, cl)] := by
  subst h
  unfold spanWrites
  have h1 : (xl - xl + 1).toNat = 1 := by omega
  rw [h1]
  unfold spanGo spanGo
  rw [if_pos rfl]

/-- Witness for C7 at row 7, `x_left = x_right = 42`. -/
theorem spanWrites_zero_width_witness :
    spanWrites 7 42 42 RED GREEN = [(42, 7, RED)] :=
  spanWrites_zero_width 7 42 42 RED GREEN rfl

/-! ### Claim C2: degenerate and collinear triangles -/

/-- Claim C2: a triangle whose three vertices share one row (equivalently
`y0 == y2` after the ascending-y sort) produces an empty write trace and
leaves the buffer untouched; and the caller pipeline (`isCollinear` gate plus
`fillTriangle`) writes nothing for any collinear triple. -/
theorem degenerate_triangles_write_nothing (s : Screen) (u0 u1 u2 : Vertex) :
    (u0.y = u1.y → u1.y = u2.y →
      fillTriangleWrites u0 u1 u2 = [] ∧ fillTriangle s u0 u1 u2 = s) ∧
    (isCollinear u0 u1 u2 = true → processTriangle s u0 u1 u2 = s) := by
  constructor
  · intro h01 h12
    have hw : fillTriangleWrites u0 u1 u2 = [] := by
      unfold fillTriangleWrites sortByY
      have n1 : ¬(u0.y > u1.y) := by omega
      have n2 : ¬(u0.y > u2.y) := by omega
      have n3 : ¬(u1.y > u2.y) := by omega
      simp only [if_neg n1, if_neg n2, if_neg n3]
      rw [if_pos (by omega)]
    exact ⟨hw, by unfold fillTriangle; rw [hw]; rfl⟩
  · intro h
    unfold processTriangle
    rw [if_pos h]

/-- Witness for C2: the all-one-row triple `(0,5) (3,5) (9,5)` writes nothing,
and the collinear triple `(0,0) (1,1) (2,2)` is rejected by the gate. -/
theorem degenerate_triangles_write_nothing_witness :
    fillTriangle initialScreen ⟨0, 5, RED⟩ ⟨3, 5, GREEN⟩ ⟨9, 5, BLUE⟩ = initialScreen ∧
    processTriangle initialScreen ⟨0, 0, RED⟩ ⟨1, 1, GREEN⟩ ⟨2, 2, BLUE⟩ = initialScreen :=
  ⟨((degenerate_triangles_write_nothing initialScreen ⟨0, 5, RED⟩ ⟨3, 5, GREEN⟩
      ⟨9, 5, BLUE⟩).1 rfl rfl).2,
    (degenerate_triangles_write_nothing initialScreen ⟨0, 0, RED⟩ ⟨1, 1, GREEN⟩
      ⟨2, 2, BLUE⟩).2 (by decide)⟩

/-! ### Claims C8 and C9: idempotence and determinism -/

/-- Claim C8: `fillTriangle` is idempotent — the write trace depends only on
the vertices, and re-issuing the same trace overwrites every touched pixel
with the same color it already received. -/
theorem fillTriangle_idempotent (s : Screen) (u0 u1 u2 : Vertex) :
    fillTriangle (fillTriangle s u0 u1 u2) u0 u1 u2 = fillTriangle s u0 u1 u2 := by
  unfold fillTriangle
  set l := fillTriangleWrites u0 u1 u2
  ext i
  · rw [applyWrites_width]
  · rw [applyWrites_height]
  · rw [applyWrites_pixels, applyWrites_pixels, applyWrites_width, applyWrites_height]
    cases h : lastWriteColor s.width s.height i l with
    | some c => simp only [h]
    | none =>
      simp only [h, applyWrites_pixels]

/-- Claim C9: `fillTriangle` is deterministic — equal starting buffers and
equal vertex triples produce bit-for-bit equal resulting buffers. -/
theorem fillTriangle_deterministic (s1 s2 : Screen) (u0 u1 u2 w0 w1 w2 : Vertex)
    (hs : s1 = s2) (h0 : u0 = w0) (h1 : u1 = w1) (h2 : u2 = w2) :
    fillTriangle s1 u0 u1 u2 = fillTriangle s2 w0 w1 w2 := by
  subst hs h0 h1 h2
  rfl

/-! ### Claim C10: writes stay inside the vertical extent -/

theorem sortByY_le (u0 u1 u2 : Vertex) :
    (sortByY u0 u1 u2).1.y ≤ (sortByY u0 u1 u2).2.1.y ∧
    (sortByY u0 u1 u2).2.1.y ≤ (sortByY u0 u1 u2).2.2.y := by
  simp only [sortByY]
  split_ifs <;> constructor <;> omega

theorem sortByY_mem (u0 u1 u2 : Vertex) :
    ((sortByY u0 u1 u2).1 = u0 ∨ (sortByY u0 u1 u2).1 = u1 ∨ (sortByY u0 u1 u2).1 = u2) ∧
    ((sortByY u0 u1 u2).2.1 = u0 ∨ (sortByY u0 u1 u2).2.1 = u1 ∨ (sortByY u0 u1 u2).2.1 = u2) ∧
    ((sortByY u0 u1 u2).2.2 = u0 ∨ (sortByY u0 u1 u2).2.2 = u1 ∨ (sortByY u0 u1 u2).2.2 = u2) := by
  simp only [sortByY]
  split_ifs <;> refine ⟨?_, ?_, ?_⟩ <;> tauto

theorem spanGo_row (y xl xr : ℤ) (cl cr : ℕ) :
    ∀ (n : ℕ) (x : ℤ) (w : Write), w ∈ spanGo y xl xr cl cr n x → w.2.1 = y := by
  intro n
  induction n with
  | zero => intro x w hw; simp [spanGo] at hw
  | succ n ih =>
    intro x w hw
    unfold spanGo at hw
    rcases List.mem_cons.mp hw with h | h
    · split at h <;> simp [h]
    · exact ih (x + 1) w h

theorem scanlineWrites_row (v0 v1 v2 : Vertex) (y : ℤ) (w : Write)
    (hw : w ∈ scanlineWrites v0 v1 v2 y) : w.2.1 = y := by
  unfold scanlineWrites scanlineBody spanWrites at hw
  split at hw
  · split at hw
    · simp at hw
    · exact spanGo_row _ _ _ _ _ _ _ w hw
  · split at hw
    · simp at hw
    · exact spanGo_row _ _ _ _ _ _ _ w hw

theorem scanWrites_mem (f : ℤ → List Write) :
    ∀ (n : ℕ) (y0 : ℤ) (w : Write), w ∈ scanWrites f y0 n →
      ∃ k : ℕ, k < n ∧ w ∈ f (y0 + k) := by
  intro n
  induction n with
  | zero => intro y0 w hw; simp [scanWrites] at hw
  | succ n ih =>
    intro y0 w hw
    unfold scanWrites at hw
    rcases List.mem_append.mp hw with h | h
    · exact ⟨0, Nat.succ_pos n, by simpa using h⟩
    · obtain ⟨k, hk, hmem⟩ := ih (y0 + 1) w h
      exact ⟨k + 1, by omega, by rwa [show y0 + 1 + (k : ℤ) = y0 + ((k : ℕ) + 1 : ℕ) by push_cast; ring] at hmem⟩

/-- Every write issued by `fillTriangle` lies on a row between the least and
greatest vertex y-coordinate. -/
theorem fillTriangleWrites_row_extent (u0 u1 u2 : Vertex) (w : Write)
    (hw : w ∈ fillTriangleWrites u0 u1 u2) :
    (u0.y ⊓ (u1.y ⊓ u2.y)) ≤ w.2.1 ∧ w.2.1 ≤ u0.y ⊔ (u1.y ⊔ u2.y) := by
  simp only [fillTriangleWrites] at hw
  split at hw
  · simp at hw
  · obtain ⟨k, hk, hmem⟩ := scanWrites_mem _ _ _ w hw
    have hrow := scanlineWrites_row _ _ _ _ w hmem
    have hk2 : (k : ℤ) ≤ (sortByY u0 u1 u2).2.2.y - (sortByY u0 u1 u2).1.y := by
      omega
    obtain ⟨hm1, _, hm3⟩ := sortByY_mem u0 u1 u2
    have hmin : u0.y ⊓ (u1.y ⊓ u2.y) ≤ (sortByY u0 u1 u2).1.y := by
      rcases hm1 with h | h | h <;> rw [h]
      · exact inf_le_left
      · exact le_trans inf_le_right inf_le_left
      · exact le_trans inf_le_right inf_le_right
    have hmax : (sortByY u0 u1 u2).2.2.y ≤ u0.y ⊔ (u1.y ⊔ u2.y) := by
      rcases hm3 with h | h | h <;> rw [h]
      · exact le_sup_left
      · exact le_trans le_sup_left le_sup_right
      · exact le_trans le_sup_right le_sup_right
    constructor
    · exact le_trans hmin (by omega)
    · exact le_trans (by omega : w.2.1 ≤ (sortByY u0 u1 u2).2.2.y) hmax

/-- Distinct rows occupy disjoint linear index ranges. -/
theorem row_index_inj (W a b xa xb : ℤ) (ha : 0 ≤ xa) (ha2 : xa < W) (hb : 0 ≤ xb)
    (hb2 : xb < W) (h : a * W + xa = b * W + xb) : a = b := by
  have hW : 0 < W := lt_of_le_of_lt ha ha2
  have aux : ∀ p q xp xq : ℤ, 0 ≤ xp → xp < W → 0 ≤ xq → xq < W →
      p * W + xp = q * W + xq → p < q → False := by
    intro p q xp xq hp hp2 hq hq2 heq hlt
    have h1 : p + 1 ≤ q := hlt
    have h2 : (p + 1) * W ≤ q * W := mul_le_mul_of_nonneg_right h1 hW.le
    have h3 : (p + 1) * W = p * W + W := by ring
    linarith
  by_contra hne
  rcases lt_or_gt_of_ne hne with hlt | hgt
  · exact aux a b xa xb ha ha2 hb hb2 h hlt
  · exact aux b a xb xa hb hb2 ha ha2 h.symm hgt

/-- Claim C10: `fillTriangle` confines its writes to the triangle's vertical
extent — any buffer row strictly above the least vertex row or strictly below
the greatest vertex row is untouched at every x. -/
theorem fillTriangle_outside_rows_unchanged (s : Screen) (u0 u1 u2 : Vertex) (x y : ℤ)
    (hx0 : 0 ≤ x) (hx1 : x < s.width) (hy0 : 0 ≤ y) (hy1 : y < s.height)
    (hout : y < u0.y ⊓ (u1.y ⊓ u2.y) ∨ u0.y ⊔ (u1.y ⊔ u2.y) < y) :
    (fillTriangle s u0 u1 u2).pixels ((y * s.width + x).toNat) =
      s.pixels ((y * s.width + x).toNat) := by
  unfold fillTriangle
  apply applyWrites_miss
  intro w hw
  have hrow := fillTriangleWrites_row_extent u0 u1 u2 w hw
  rw [Bool.eq_false_iff]
  intro hh
  rw [hits_iff] at hh
  obtain ⟨hwx0, hwx1, hwy0, hwy1, hidx⟩ := hh
  have hWpos : (0 : ℤ) < s.width := lt_of_le_of_lt hx0 hx1
  have hnn1 : 0 ≤ w.2.1 * s.width + w.1 := add_nonneg (mul_nonneg hwy0 hWpos.le) hwx0
  have hnn2 : 0 ≤ y * s.width + x := add_nonneg (mul_nonneg hy0 hWpos.le) hx0
  have heq : w.2.1 * s.width + w.1 = y * s.width + x := by
    clear hrow hout
    omega
  have hy := row_index_inj s.width w.2.1 y w.1 x hwx0 hwx1 hx0 hx1 heq
  rcases hout with h | h
  · exact absurd (le_trans hrow.1 (le_of_eq hy)) (not_le.mpr h)
  · exact absurd (le_trans (le_of_eq hy.symm) hrow.2) (not_le.mpr h)

/-- Witness for C10: on the first default triangle, row 99 column 0 of the
initial screen is untouched. -/
theorem fillTriangle_outside_rows_unchanged_witness :
    (fillTriangle initialScreen ⟨250, 100, RED⟩ ⟨100, 400, GREEN⟩ ⟨400, 400, BLUE⟩).pixels
        (((99 : ℤ) * initialScreen.width + 37).toNat) =
      initialScreen.pixels (((99 : ℤ) * initialScreen.width + 37).toNat) :=
  fillTriangle_outside_rows_unchanged initialScreen ⟨250, 100, RED⟩ ⟨100, 400, GREEN⟩
    ⟨400, 400, BLUE⟩ 37 99 (by norm_num) (by norm_num [initialScreen]) (by norm_num)
    (by norm_num [initialScreen]) (by left; rw [lt_inf_iff, lt_inf_iff]; norm_num)

/-- Witness for C9 on the first default triangle. -/
theorem fillTriangle_deterministic_witness :
    fillTriangle initialScreen ⟨250, 100, RED⟩ ⟨100, 400, GREEN⟩ ⟨400, 400, BLUE⟩ =
      fillTriangle initialScreen ⟨250, 100, RED⟩ ⟨100, 400, GREEN⟩ ⟨400, 400, BLUE⟩ :=
  fillTriangle_deterministic initialScreen initialScreen ⟨250, 100, RED⟩ ⟨100, 400, GREEN⟩
    ⟨400, 400, BLUE⟩ ⟨250, 100, RED⟩ ⟨100, 400, GREEN⟩ ⟨400, 400, BLUE⟩ rfl rfl rfl rfl

/-! ### Claim C3: Bresenham endpoints, length, and dominant-axis stepping -/

theorem getLast?_cons_of_ne_nil {α : Type} (a : α) (l : List α) (h : l ≠ []) :
    (a :: l).getLast? = l.getLast? := by
  cases l with
  | nil => exact absurd rfl h
  | cons b t => exact List.getLast?_cons_cons

theorem bresLowGo_length (c0 c1 : ℕ) (yi dy dx tot : ℤ) :
    ∀ (n : ℕ) (x y D step : ℤ), (bresLowGo c0 c1 yi dy dx tot n x y D step).length = n := by
  intro n
  induction n with
  | zero => intro x y D step; rfl
  | succ m ih =>
    intro x y D step
    simp only [bresLowGo, List.length_cons]
    split <;> rw [ih]

theorem bresHighGo_length (c0 c1 : ℕ) (xi dx dy tot : ℤ) :
    ∀ (n : ℕ) (y x D step : ℤ), (bresHighGo c0 c1 xi dx dy tot n y x D step).length = n := by
  intro n
  induction n with
  | zero => intro y x D step; rfl
  | succ m ih =>
    intro y x D step
    simp only [bresHighGo, List.length_cons]
    split <;> rw [ih]

theorem bresLowGo_x (c0 c1 : ℕ) (yi dy dx tot : ℤ) :
    ∀ (n : ℕ) (x y D step : ℤ) (k : ℕ) (v : Vertex),
      (bresLowGo c0 c1 yi dy dx tot n x y D step)[k]? = some v → v.x = x + (k : ℤ) := by
  intro n
  induction n with
  | zero => intro x y D step k v hv; simp [bresLowGo] at hv
  | succ m ih =>
    intro x y D step k v hv
    simp only [bresLowGo] at hv
    cases k with
    | zero =>
      rw [List.getElem?_cons_zero, Option.some_inj] at hv
      rw [← hv]
      simp
    | succ k =>
      rw [List.getElem?_cons_succ] at hv
      split at hv <;> rw [ih _ _ _ _ k v hv] <;> push_cast <;> ring

theorem bresHighGo_y (c0 c1 : ℕ) (xi dx dy tot : ℤ) :
    ∀ (n : ℕ) (y x D step : ℤ) (k : ℕ) (v : Vertex),
      (bresHighGo c0 c1 xi dx dy tot n y x D step)[k]? = some v → v.y = y + (k : ℤ) := by
  intro n
  induction n with
  | zero => intro y x D step k v hv; simp [bresHighGo] at hv
  | succ m ih =>
    intro y x D step k v hv
    simp only [bresHighGo] at hv
    cases k with
    | zero =>
      rw [List.getElem?_cons_zero, Option.some_inj] at hv
      rw [← hv]
      simp
    | succ k =>
      rw [List.getElem?_cons_succ] at hv
      split at hv <;> rw [ih _ _ _ _ k v hv] <;> push_cast <;> ring

theorem bresLowGo_head (c0 c1 : ℕ) (yi dy dx tot : ℤ) (n : ℕ) (x y D step : ℤ) (hn : 0 < n) :
    ∃ c, (bresLowGo c0 c1 yi dy dx tot n x y D step).head? = some ⟨x, y, c⟩ := by
  cases n with
  | zero => omega
  | succ m => exact ⟨_, rfl⟩

theorem bresHighGo_head (c0 c1 : ℕ) (xi dx dy tot : ℤ) (n : ℕ) (y x D step : ℤ) (hn : 0 < n) :
    ∃ c, (bresHighGo c0 c1 xi dx dy tot n y x D step).head? = some ⟨x, y, c⟩ := by
  cases n with
  | zero => omega
  | succ m => exact ⟨_, rfl⟩

/-- The decision-variable invariant of `bresenhamLow`: with `0 ≤ dy < dx`,
remaining iteration count `n`, and `q` increments performed so far, relating
`D` to the loop progress pins the y-offset of the final emitted pixel to
exactly `dy` total increments. -/
theorem bresLowGo_getLast (c0 c1 : ℕ) (yi dy dx tot : ℤ) (hdy : 0 ≤ dy) (hdx : dy < dx) :
    ∀ (n : ℕ) (x y D step q : ℤ), 1 ≤ n → (n : ℤ) ≤ dx + 1 →
      D = 2 * dy * (dx + 2 - n) - dx - 2 * dx * q →
      2 * (dy - dx) ≤ D → D ≤ 2 * dy →
      ∃ c, (bresLowGo c0 c1 yi dy dx tot n x y D step).getLast? =
        some ⟨x + n - 1, y + yi * (dy - q), c⟩ := by
  intro n
  induction n with
  | zero => intro x y D step q h1 _ _ _ _; exact absurd h1 (by norm_num)
  | succ m ih =>
    intro x y D step q h1 h2 hD hb1 hb2
    rcases Nat.eq_zero_or_pos m with hm | hm
    · subst hm
      have hdx0 : (0 : ℤ) < dx := by omega
      have hD1 : D = 2 * dy * (dx + 1) - dx - 2 * dx * q := by
        push_cast at hD
        linear_combination hD
      have hq1 : q ≤ dy := by
        by_contra hc
        push_neg at hc
        have hm1 : dx * (dy + 1) ≤ dx * q := mul_le_mul_of_nonneg_left (by omega) hdx0.le
        nlinarith [hD1, hb1]
      have hq2 : dy ≤ q := by
        by_contra hc
        push_neg at hc
        have hm2 : dx * (q + 1) ≤ dx * dy := mul_le_mul_of_nonneg_left (by omega) hdx0.le
        nlinarith [hD1, hb2]
      have hq : q = dy := le_antisymm hq1 hq2
      have hlist : bresLowGo c0 c1 yi dy dx tot 1 x y D step =
          [⟨x, y, interpolateColor c0 c1 (if 0 < tot then (step : ℚ) / (tot : ℚ) else 0)⟩] := by
        simp [bresLowGo]
      refine ⟨interpolateColor c0 c1 (if 0 < tot then (step : ℚ) / (tot : ℚ) else 0), ?_⟩
      rw [show (0 + 1 : ℕ) = 1 from rfl, hlist]
      have e1 : x + ((1 : ℕ) : ℤ) - 1 = x := by push_cast; ring
      have e2 : y + yi * (dy - q) = y := by rw [hq]; ring
      rw [e1, e2]
      rfl
    · by_cases hDpos : 0 < D
      · obtain ⟨c, hc⟩ := ih (x + 1) (y + yi) (D + 2 * (dy - dx)) (step + 1) (q + 1)
          (by omega) (by push_cast at h2 ⊢; omega)
          (by push_cast at hD ⊢; linear_combination hD)
          (by omega) (by omega)
        refine ⟨c, ?_⟩
        simp only [bresLowGo]
        rw [if_pos hDpos]
        rw [getLast?_cons_of_ne_nil _ _ (List.ne_nil_of_length_pos (by rw [bresLowGo_length]; omega))]
        rw [hc]
        have e1 : x + 1 + (m : ℤ) - 1 = x + ((m + 1 : ℕ) : ℤ) - 1 := by push_cast; ring
        have e2 : y + yi + yi * (dy - (q + 1)) = y + yi * (dy - q) := by ring
        rw [e1, e2]
      · obtain ⟨c, hc⟩ := ih (x + 1) y (D + 2 * dy) (step + 1) q
          (by omega) (by push_cast at h2 ⊢; omega)
          (by push_cast at hD ⊢; linear_combination hD)
          (by omega) (by omega)
        refine ⟨c, ?_⟩
        simp only [bresLowGo]
        rw [if_neg hDpos]
        rw [getLast?_cons_of_ne_nil _ _ (List.ne_nil_of_length_pos (by rw [bresLowGo_length]; omega))]
        rw [hc]
        have e1 : x + 1 + (m : ℤ) - 1 = x + ((m + 1 : ℕ) : ℤ) - 1 := by push_cast; ring
        rw [e1]

/-- The decision-variable invariant of `bresenhamHigh`: with `0 ≤ dx ≤ dy` and
`0 < dy`, the x-offset of the final emitted pixel is exactly `dx` total
increments. -/
theorem bresHighGo_getLast (c0 c1 : ℕ) (xi dx dy tot : ℤ) (hdx : 0 ≤ dx) (hdxy : dx ≤ dy)
    (hdy0 : 0 < dy) :
    ∀ (n : ℕ) (y x D step q : ℤ), 1 ≤ n → (n : ℤ) ≤ dy + 1 →
      D = 2 * dx * (dy + 2 - n) - dy - 2 * dy * q →
      2 * (dx - dy) ≤ D → D ≤ 2 * dx →
      ∃ c, (bresHighGo c0 c1 xi dx dy tot n y x D step).getLast? =
        some ⟨x + xi * (dx - q), y + n - 1, c⟩ := by
  intro n
  induction n with
  | zero => intro y x D step q h1 _ _ _ _; exact absurd h1 (by norm_num)
  | succ m ih =>
    intro y x D step q h1 h2 hD hb1 hb2
    rcases Nat.eq_zero_or_pos m with hm | hm
    · subst hm
      have hD1 : D = 2 * dx * (dy + 1) - dy - 2 * dy * q := by
        push_cast at hD
        linear_combination hD
      have hq1 : q ≤ dx := by
        by_contra hc
        push_neg at hc
        have hm1 : dy * (dx + 1) ≤ dy * q := mul_le_mul_of_nonneg_left (by omega) hdy0.le
        nlinarith [hD1, hb1]
      have hq2 : dx ≤ q := by
        by_contra hc
        push_neg at hc
        have hm2 : dy * (q + 1) ≤ dy * dx := mul_le_mul_of_nonneg_left (by omega) hdy0.le
        nlinarith [hD1, hb2]
      have hq : q = dx := le_antisymm hq1 hq2
      have hlist : bresHighGo c0 c1 xi dx dy tot 1 y x D step =
          [⟨x, y, interpolateColor c0 c1 (if 0 < tot then (step : ℚ) / (tot : ℚ) else 0)⟩] := by
        simp [bresHighGo]
      refine ⟨interpolateColor c0 c1 (if 0 < tot then (step : ℚ) / (tot : ℚ) else 0), ?_⟩
      rw [show (0 + 1 : ℕ) = 1 from rfl, hlist]
      have e1 : x + xi * (dx - q) = x := by rw [hq]; ring
      have e2 : y + ((1 : ℕ) : ℤ) - 1 = y := by push_cast; ring
      rw [e1, e2]
      rfl
    · by_cases hDpos : 0 < D
      · obtain ⟨c, hc⟩ := ih (y + 1) (x + xi) (D + 2 * (dx - dy)) (step + 1) (q + 1)
          (by omega) (by push_cast at h2 ⊢; omega)
          (by push_cast at hD ⊢; linear_combination hD)
          (by omega) (by omega)
        refine ⟨c, ?_⟩
        simp only [bresHighGo]
        rw [if_pos hDpos]
        rw [getLast?_cons_of_ne_nil _ _ (List.ne_nil_of_length_pos (by rw [bresHighGo_length]; omega))]
        rw [hc]
        have e1 : x + xi + xi * (dx - (q + 1)) = x + xi * (dx - q) := by ring
        have e2 : y + 1 + (m : ℤ) - 1 = y + ((m + 1 : ℕ) : ℤ) - 1 := by push_cast; ring
        rw [e1, e2]
      · obtain ⟨c, hc⟩ := ih (y + 1) x (D + 2 * dx) (step + 1) q
          (by omega) (by push_cast at h2 ⊢; omega)
          (by push_cast at hD ⊢; linear_combination hD)
          (by omega) (by omega)
        refine ⟨c, ?_⟩
        simp only [bresHighGo]
        rw [if_neg hDpos]
        rw [getLast?_cons_of_ne_nil _ _ (List.ne_nil_of_length_pos (by rw [bresHighGo_length]; omega))]
        rw [hc]
        have e2 : y + 1 + (m : ℤ) - 1 = y + ((m + 1 : ℕ) : ℤ) - 1 := by push_cast; ring
        rw [e2]

theorem bresenhamLow_x (x0 y0 : ℤ) (c0 : ℕ) (x1 y1 : ℤ) (c1 : ℕ) (k : ℕ) (v : Vertex)
    (h : (bresenhamLow x0 y0 c0 x1 y1 c1)[k]? = some v) : v.x = x0 + (k : ℤ) := by
  simp only [bresenhamLow] at h
  exact bresLowGo_x _ _ _ _ _ _ _ _ _ _ _ _ _ h

theorem bresenhamHigh_y (x0 y0 : ℤ) (c0 : ℕ) (x1 y1 : ℤ) (c1 : ℕ) (k : ℕ) (v : Vertex)
    (h : (bresenhamHigh x0 y0 c0 x1 y1 c1)[k]? = some v) : v.y = y0 + (k : ℤ) := by
  simp only [bresenhamHigh] at h
  exact bresHighGo_y _ _ _ _ _ _ _ _ _ _ _ _ _ h

/-- Endpoint and length facts for the shallow stepper under the dispatch
conditions of `bresenham`: normalized direction `x0 ≤ x1` and dominant x. -/
theorem bresenhamLow_spec (x0 y0 : ℤ) (c0 : ℕ) (x1 y1 : ℤ) (c1 : ℕ)
    (hlt : (y1 - y0).natAbs < (x1 - x0).natAbs) (hle : x0 ≤ x1) :
    (bresenhamLow x0 y0 c0 x1 y1 c1).length = (x1 - x0).toNat + 1 ∧
    (∃ c, (bresenhamLow x0 y0 c0 x1 y1 c1).head? = some ⟨x0, y0, c⟩) ∧
    (∃ c, (bresenhamLow x0 y0 c0 x1 y1 c1).getLast? = some ⟨x1, y1, c⟩) := by
  have hd1 : -(x1 - x0) < y1 - y0 := by omega
  have hd2 : y1 - y0 < x1 - x0 := by omega
  clear hlt
  have hdx0 : 0 < x1 - x0 := by omega
  have hn : (((x1 - x0 + 1).toNat : ℕ) : ℤ) = x1 - x0 + 1 := by omega
  simp only [bresenhamLow]
  by_cases hneg : y1 - y0 < 0
  · simp only [if_pos hneg]
    refine ⟨by rw [bresLowGo_length]; omega, bresLowGo_head _ _ _ _ _ _ _ _ _ _ _ (by omega), ?_⟩
    obtain ⟨c, hc⟩ := bresLowGo_getLast c0 c1 (-1) (-(y1 - y0)) (x1 - x0) (x1 - x0)
      (by omega) (by omega) (x1 - x0 + 1).toNat x0 y0 (2 * -(y1 - y0) - (x1 - x0)) 0 0
      (by omega) (by omega) (by rw [hn]; ring) (by omega) (by omega)
    refine ⟨c, ?_⟩
    rw [hc]
    simp only [Option.some_inj, Vertex.mk.injEq]
    refine ⟨by omega, by ring, trivial⟩
  · simp only [if_neg hneg]
    refine ⟨by rw [bresLowGo_length]; omega, bresLowGo_head _ _ _ _ _ _ _ _ _ _ _ (by omega), ?_⟩
    obtain ⟨c, hc⟩ := bresLowGo_getLast c0 c1 1 (y1 - y0) (x1 - x0) (x1 - x0)
      (by omega) (by omega) (x1 - x0 + 1).toNat x0 y0 (2 * (y1 - y0) - (x1 - x0)) 0 0
      (by omega) (by omega) (by rw [hn]; ring) (by omega) (by omega)
    refine ⟨c, ?_⟩
    rw [hc]
    simp only [Option.some_inj, Vertex.mk.injEq]
    refine ⟨by omega, by ring, trivial⟩

/-- Endpoint and length facts for the steep stepper under the dispatch
conditions of `bresenham`: normalized direction `y0 < y1` and dominant y. -/
theorem bresenhamHigh_spec (x0 y0 : ℤ) (c0 : ℕ) (x1 y1 : ℤ) (c1 : ℕ)
    (hge : (x1 - x0).natAbs ≤ (y1 - y0).natAbs) (hlt2 : y0 < y1) :
    (bresenhamHigh x0 y0 c0 x1 y1 c1).length = (y1 - y0).toNat + 1 ∧
    (∃ c, (bresenhamHigh x0 y0 c0 x1 y1 c1).head? = some ⟨x0, y0, c⟩) ∧
    (∃ c, (bresenhamHigh x0 y0 c0 x1 y1 c1).getLast? = some ⟨x1, y1, c⟩) := by
  have hdy0 : 0 < y1 - y0 := by omega
  have hd1 : -(y1 - y0) ≤ x1 - x0 := by omega
  have hd2 : x1 - x0 ≤ y1 - y0 := by omega
  clear hge
  have hn : (((y1 - y0 + 1).toNat : ℕ) : ℤ) = y1 - y0 + 1 := by omega
  simp only [bresenhamHigh]
  by_cases hneg : x1 - x0 < 0
  · simp only [if_pos hneg]
    refine ⟨by rw [bresHighGo_length]; omega, bresHighGo_head _ _ _ _ _ _ _ _ _ _ _ (by omega), ?_⟩
    obtain ⟨c, hc⟩ := bresHighGo_getLast c0 c1 (-1) (-(x1 - x0)) (y1 - y0) (y1 - y0)
      (by omega) (by omega) (by omega) (y1 - y0 + 1).toNat y0 x0
      (2 * -(x1 - x0) - (y1 - y0)) 0 0
      (by omega) (by omega) (by rw [hn]; ring) (by omega) (by omega)
    refine ⟨c, ?_⟩
    rw [hc]
    simp only [Option.some_inj, Vertex.mk.injEq]
    refine ⟨by ring, by omega, trivial⟩
  · simp only [if_neg hneg]
    refine ⟨by rw [bresHighGo_length]; omega, bresHighGo_head _ _ _ _ _ _ _ _ _ _ _ (by omega), ?_⟩
    obtain ⟨c, hc⟩ := bresHighGo_getLast c0 c1 1 (x1 - x0) (y1 - y0) (y1 - y0)
      (by omega) (by omega) (by omega) (y1 - y0 + 1).toNat y0 x0
      (2 * (x1 - x0) - (y1 - y0)) 0 0
      (by omega) (by omega) (by rw [hn]; ring) (by omega) (by omega)
    refine ⟨c, ?_⟩
    rw [hc]
    simp only [Option.some_inj, Vertex.mk.injEq]
    refine ⟨by ring, by omega, trivial⟩

theorem natAbs_sub_swap (a b : ℤ) : (a - b).natAbs = (b - a).natAbs := by
  rw [show a - b = -(b - a) by ring, Int.natAbs_neg]

/-- Claim C3: for distinct endpoints, `bresenham` emits exactly
`max(|dx|, |dy|) + 1` pixels; the first emitted pixel sits on one input
endpoint (the normalized start) and the last on the other; and the
dominant-axis coordinate advances by exactly 1 from each emitted pixel to the
next. -/
theorem bresenham_spec (x0 y0 : ℤ) (c0 : ℕ) (x1 y1 : ℤ) (c1 : ℕ)
    (hne : ¬(x0 = x1 ∧ y0 = y1)) :
    (bresenham x0 y0 c0 x1 y1 c1).length = max (x1 - x0).natAbs (y1 - y0).natAbs + 1 ∧
    (∃ v w, (bresenham x0 y0 c0 x1 y1 c1).head? = some v ∧
      (bresenham x0 y0 c0 x1 y1 c1).getLast? = some w ∧
      ((v.x = x0 ∧ v.y = y0 ∧ w.x = x1 ∧ w.y = y1) ∨
        (v.x = x1 ∧ v.y = y1 ∧ w.x = x0 ∧ w.y = y0))) ∧
    (∀ (k : ℕ) (v w : Vertex), (bresenham x0 y0 c0 x1 y1 c1)[k]? = some v →
      (bresenham x0 y0 c0 x1 y1 c1)[k + 1]? = some w →
      (if (y1 - y0).natAbs < (x1 - x0).natAbs then w.x = v.x + 1 else w.y = v.y + 1)) := by
  unfold bresenham
  by_cases hdom : (y1 - y0).natAbs < (x1 - x0).natAbs
  · simp only [if_pos hdom]
    by_cases hswap : x0 > x1
    · simp only [if_pos hswap]
      have hdom2 : (y0 - y1).natAbs < (x0 - x1).natAbs := by
        rw [natAbs_sub_swap y0 y1, natAbs_sub_swap x0 x1]
        exact hdom
      obtain ⟨hlen, ⟨cv, hv⟩, ⟨cw, hw⟩⟩ := bresenhamLow_spec x1 y1 c1 x0 y0 c0
        hdom2 (le_of_lt hswap)
      refine ⟨?_, ⟨⟨x1, y1, cv⟩, ⟨x0, y0, cw⟩, hv, hw, Or.inr (by simp)⟩, ?_⟩
      · rw [hlen, Nat.max_eq_left (le_of_lt hdom), natAbs_sub_swap x1 x0]
        clear hdom hdom2 hne hv hw
        omega
      intro k v w hkv hkw
      have h1 := bresenhamLow_x x1 y1 c1 x0 y0 c0 k v hkv
      have h2 := bresenhamLow_x x1 y1 c1 x0 y0 c0 (k + 1) w hkw
      rw [h1, h2]
      push_cast
      ring
    · simp only [if_neg hswap]
      obtain ⟨hlen, ⟨cv, hv⟩, ⟨cw, hw⟩⟩ := bresenhamLow_spec x0 y0 c0 x1 y1 c1
        hdom (not_lt.mp hswap)
      refine ⟨?_, ⟨⟨x0, y0, cv⟩, ⟨x1, y1, cw⟩, hv, hw, Or.inl (by simp)⟩, ?_⟩
      · rw [hlen, Nat.max_eq_left (le_of_lt hdom)]
        clear hdom hne hv hw
        omega
      intro k v w hkv hkw
      have h1 := bresenhamLow_x x0 y0 c0 x1 y1 c1 k v hkv
      have h2 := bresenhamLow_x x0 y0 c0 x1 y1 c1 (k + 1) w hkw
      rw [h1, h2]
      push_cast
      ring
  · simp only [if_neg hdom]
    by_cases hswap : y0 > y1
    · simp only [if_pos hswap]
      have hge2 : (x0 - x1).natAbs ≤ (y0 - y1).natAbs := by
        rw [natAbs_sub_swap x0 x1, natAbs_sub_swap y0 y1]
        exact not_lt.mp hdom
      obtain ⟨hlen, ⟨cv, hv⟩, ⟨cw, hw⟩⟩ := bresenhamHigh_spec x1 y1 c1 x0 y0 c0
        hge2 hswap
      refine ⟨?_, ⟨⟨x1, y1, cv⟩, ⟨x0, y0, cw⟩, hv, hw, Or.inr (by simp)⟩, ?_⟩
      · rw [hlen, Nat.max_eq_right (not_lt.mp hdom), natAbs_sub_swap y1 y0]
        clear hdom hge2 hne hv hw
        omega
      intro k v w hkv hkw
      have h1 := bresenhamHigh_y x1 y1 c1 x0 y0 c0 k v hkv
      have h2 := bresenhamHigh_y x1 y1 c1 x0 y0 c0 (k + 1) w hkw
      rw [h1, h2]
      push_cast
      ring
    · simp only [if_neg hswap]
      have hy : y0 < y1 := by omega
      obtain ⟨hlen, ⟨cv, hv⟩, ⟨cw, hw⟩⟩ := bresenhamHigh_spec x0 y0 c0 x1 y1 c1
        (not_lt.mp hdom) hy
      refine ⟨?_, ⟨⟨x0, y0, cv⟩, ⟨x1, y1, cw⟩, hv, hw, Or.inl (by simp)⟩, ?_⟩
      · rw [hlen, Nat.max_eq_right (not_lt.mp hdom)]
        clear hdom hne hv hw
        omega
      intro k v w hkv hkw
      have h1 := bresenhamHigh_y x0 y0 c0 x1 y1 c1 k v hkv
      have h2 := bresenhamHigh_y x0 y0 c0 x1 y1 c1 (k + 1) w hkw
      rw [h1, h2]
      push_cast
      ring

/-- Witness for C3 at the distinct endpoints `(0,0)` and `(3,1)`. -/
theorem bresenham_spec_witness :
    (bresenham 0 0 RED 3 1 GREEN).length =
      max ((3 : ℤ) - 0).natAbs ((1 : ℤ) - 0).natAbs + 1 ∧
    (∃ v w, (bresenham 0 0 RED 3 1 GREEN).head? = some v ∧
      (bresenham 0 0 RED 3 1 GREEN).getLast? = some w ∧
      ((v.x = 0 ∧ v.y = 0 ∧ w.x = 3 ∧ w.y = 1) ∨
        (v.x = 3 ∧ v.y = 1 ∧ w.x = 0 ∧ w.y = 0))) ∧
    (∀ (k : ℕ) (v w : Vertex), (bresenham 0 0 RED 3 1 GREEN)[k]? = some v →
      (bresenham 0 0 RED 3 1 GREEN)[k + 1]? = some w →
      (if ((1 : ℤ) - 0).natAbs < ((3 : ℤ) - 0).natAbs then w.x = v.x + 1 else w.y = v.y + 1)) :=
  bresenham_spec 0 0 RED 3 1 GREEN (by omega)

/-! ### Claim C1: the default triangle -/

/-- Truncating byte interpolation is convex: for `t ∈ [0,1]` the result stays
between the two endpoint bytes. -/
theorem interpByte_range (b1 b2 : ℕ) (h1 : b1 < 256) (h2 : b2 < 256) (t : ℚ)
    (ht0 : 0 ≤ t) (ht1 : t ≤ 1) :
    min b1 b2 ≤ interpByte b1 b2 t ∧ interpByte b1 b2 t ≤ max b1 b2 := by
  have hcast : (((b2 : ℤ) - (b1 : ℤ) : ℤ) : ℚ) = (b2 : ℚ) - (b1 : ℚ) := by push_cast; ring
  unfold interpByte
  rw [hcast]
  have hlo : ((min b1 b2 : ℕ) : ℚ) ≤ (b1 : ℚ) + ((b2 : ℚ) - (b1 : ℚ)) * t := by
    rcases le_total b1 b2 with hbb | hbb
    · rw [min_eq_left hbb]
      have hq : (b1 : ℚ) ≤ (b2 : ℚ) := by exact_mod_cast hbb
      nlinarith [mul_nonneg (by linarith : (0 : ℚ) ≤ (b2 : ℚ) - (b1 : ℚ)) ht0]
    · rw [min_eq_right hbb]
      have hq : (b2 : ℚ) ≤ (b1 : ℚ) := by exact_mod_cast hbb
      nlinarith [mul_nonneg (by linarith : (0 : ℚ) ≤ (b1 : ℚ) - (b2 : ℚ))
        (by linarith : (0 : ℚ) ≤ 1 - t)]
  have hhi : (b1 : ℚ) + ((b2 : ℚ) - (b1 : ℚ)) * t ≤ ((max b1 b2 : ℕ) : ℚ) := by
    rcases le_total b1 b2 with hbb | hbb
    · rw [max_eq_right hbb]
      have hq : (b1 : ℚ) ≤ (b2 : ℚ) := by exact_mod_cast hbb
      nlinarith [mul_nonneg (by linarith : (0 : ℚ) ≤ (b2 : ℚ) - (b1 : ℚ))
        (by linarith : (0 : ℚ) ≤ 1 - t)]
    · rw [max_eq_left hbb]
      have hq : (b2 : ℚ) ≤ (b1 : ℚ) := by exact_mod_cast hbb
      nlinarith [mul_nonneg (by linarith : (0 : ℚ) ≤ (b1 : ℚ) - (b2 : ℚ)) ht0]
  have hv0 : (0 : ℚ) ≤ (b1 : ℚ) + ((b2 : ℚ) - (b1 : ℚ)) * t := le_trans (by positivity) hlo
  rw [ftrunc_eq_floor _ hv0]
  have hfl1 : ((min b1 b2 : ℕ) : ℤ) ≤ ⌊(b1 : ℚ) + ((b2 : ℚ) - (b1 : ℚ)) * t⌋ :=
    Int.le_floor.mpr (by exact_mod_cast hlo)
  have hfl2 : ⌊(b1 : ℚ) + ((b2 : ℚ) - (b1 : ℚ)) * t⌋ ≤ ((max b1 b2 : ℕ) : ℤ) := by
    exact_mod_cast le_trans (Int.floor_le _) hhi
  have hz0 : 0 ≤ ⌊(b1 : ℚ) + ((b2 : ℚ) - (b1 : ℚ)) * t⌋ :=
    le_trans (Int.natCast_nonneg _) hfl1
  have hz255 : ⌊(b1 : ℚ) + ((b2 : ℚ) - (b1 : ℚ)) * t⌋ < 256 :=
    lt_of_le_of_lt hfl2 (by exact_mod_cast max_lt h1 h2)
  unfold toByte
  rw [Int.emod_eq_of_lt hz0 hz255]
  exact ⟨(Int.le_toNat hz0).mpr hfl1, Int.toNat_le.mpr hfl2⟩

theorem interpolateColor_chR_range (cA cB : ℕ) (t : ℚ) (ht0 : 0 ≤ t) (ht1 : t ≤ 1) :
    min (chR cA) (chR cB) ≤ chR (interpolateColor cA cB t) ∧
    chR (interpolateColor cA cB t) ≤ max (chR cA) (chR cB) := by
  unfold interpolateColor
  rw [chR_packColor _ _ _ _ (interpByte_lt ..) (interpByte_lt ..) (interpByte_lt ..)
    (interpByte_lt ..)]
  exact interpByte_range _ _ (chR_lt cA) (chR_lt cB) t ht0 ht1

theorem interpolateColor_chG_range (cA cB : ℕ) (t : ℚ) (ht0 : 0 ≤ t) (ht1 : t ≤ 1) :
    min (chG cA) (chG cB) ≤ chG (interpolateColor cA cB t) ∧
    chG (interpolateColor cA cB t) ≤ max (chG cA) (chG cB) := by
  unfold interpolateColor
  rw [chG_packColor _ _ _ _ (interpByte_lt ..) (interpByte_lt ..) (interpByte_lt ..)
    (interpByte_lt ..)]
  exact interpByte_range _ _ (chG_lt cA) (chG_lt cB) t ht0 ht1

theorem interpolateColor_chB_range (cA cB : ℕ) (t : ℚ) (ht0 : 0 ≤ t) (ht1 : t ≤ 1) :
    min (chB cA) (chB cB) ≤ chB (interpolateColor cA cB t) ∧
    chB (interpolateColor cA cB t) ≤ max (chB cA) (chB cB) := by
  unfold interpolateColor
  rw [chB_packColor _ _ _ _ (interpByte_lt ..) (interpByte_lt ..) (interpByte_lt ..)
    (interpByte_lt ..)]
  exact interpByte_range _ _ (chB_lt cA) (chB_lt cB) t ht0 ht1

theorem interpolateColor_chA_range (cA cB : ℕ) (t : ℚ) (ht0 : 0 ≤ t) (ht1 : t ≤ 1) :
    min (chA cA) (chA cB) ≤ chA (interpolateColor cA cB t) ∧
    chA (interpolateColor cA cB t) ≤ max (chA cA) (chA cB) := by
  unfold interpolateColor
  rw [chA_packColor _ _ _ _ (interpByte_lt ..) (interpByte_lt ..) (interpByte_lt ..)
    (interpByte_lt ..)]
  exact interpByte_range _ _ (chA_lt cA) (chA_lt cB) t ht0 ht1

/-- One byte channel lying inside the min/max envelope of the corresponding
channel of three reference colors. -/
abbrev byteIn3 (a b c v : ℕ) : Prop := min a (min b c) ≤ v ∧ v ≤ max a (max b c)

/-- Every channel of `c` lies within the convex-combination envelope of the
corresponding channels of `cA`, `cB`, `cC` — the property the spec demands of
every filled pixel. -/
def colorInRange3 (cA cB cC c : ℕ) : Bool :=
  decide (byteIn3 (chR cA) (chR cB) (chR cC) (chR c)) &&
  decide (byteIn3 (chG cA) (chG cB) (chG cC) (chG c)) &&
  decide (byteIn3 (chB cA) (chB cB) (chB cC) (chB c)) &&
  decide (byteIn3 (chA cA) (chA cB) (chA cC) (chA c))

theorem colorInRange3_iff (cA cB cC c : ℕ) :
    colorInRange3 cA cB cC c = true ↔
      byteIn3 (chR cA) (chR cB) (chR cC) (chR c) ∧
      byteIn3 (chG cA) (chG cB) (chG cC) (chG c) ∧
      byteIn3 (chB cA) (chB cB) (chB cC) (chB c) ∧
      byteIn3 (chA cA) (chA cB) (chA cC) (chA c) := by
  unfold colorInRange3 byteIn3
  simp [and_assoc]

theorem byteIn3_fst (a b c : ℕ) : byteIn3 a b c a :=
  ⟨min_le_left _ _, le_max_left _ _⟩

theorem byteIn3_snd (a b c : ℕ) : byteIn3 a b c b :=
  ⟨le_trans (min_le_right _ _) (min_le_left _ _), le_trans (le_max_left _ _) (le_max_right _ _)⟩

theorem byteIn3_thd (a b c : ℕ) : byteIn3 a b c c :=
  ⟨le_trans (min_le_right _ _) (min_le_right _ _), le_trans (le_max_right _ _) (le_max_right _ _)⟩

theorem colorInRange3_fst (cA cB cC : ℕ) : colorInRange3 cA cB cC cA = true := by
  rw [colorInRange3_iff]
  exact ⟨byteIn3_fst .., byteIn3_fst .., byteIn3_fst .., byteIn3_fst ..⟩

theorem colorInRange3_snd (cA cB cC : ℕ) : colorInRange3 cA cB cC cB = true := by
  rw [colorInRange3_iff]
  exact ⟨byteIn3_snd .., byteIn3_snd .., byteIn3_snd .., byteIn3_snd ..⟩

theorem colorInRange3_thd (cA cB cC : ℕ) : colorInRange3 cA cB cC cC = true := by
  rw [colorInRange3_iff]
  exact ⟨byteIn3_thd .., byteIn3_thd .., byteIn3_thd .., byteIn3_thd ..⟩

/-- Interpolating between two in-envelope colors with `t ∈ [0,1]` stays in the
envelope. -/
theorem byteIn3_interp (a b c v1 v2 v : ℕ) (h1 : byteIn3 a b c v1) (h2 : byteIn3 a b c v2)
    (hlo : min v1 v2 ≤ v) (hhi : v ≤ max v1 v2) : byteIn3 a b c v :=
  ⟨le_trans (le_min h1.1 h2.1) hlo, le_trans hhi (max_le h1.2 h2.2)⟩

theorem colorInRange3_interp (cA cB cC ca cb : ℕ) (t : ℚ) (ht0 : 0 ≤ t) (ht1 : t ≤ 1)
    (ha : colorInRange3 cA cB cC ca = true) (hb : colorInRange3 cA cB cC cb = true) :
    colorInRange3 cA cB cC (interpolateColor ca cb t) = true := by
  rw [colorInRange3_iff] at ha hb ⊢
  have hR := interpolateColor_chR_range ca cb t ht0 ht1
  have hG := interpolateColor_chG_range ca cb t ht0 ht1
  have hB := interpolateColor_chB_range ca cb t ht0 ht1
  have hA := interpolateColor_chA_range ca cb t ht0 ht1
  exact ⟨byteIn3_interp _ _ _ _ _ _ ha.1 hb.1 hR.1 hR.2,
    byteIn3_interp _ _ _ _ _ _ ha.2.1 hb.2.1 hG.1 hG.2,
    byteIn3_interp _ _ _ _ _ _ ha.2.2.1 hb.2.2.1 hB.1 hB.2,
    byteIn3_interp _ _ _ _ _ _ ha.2.2.2 hb.2.2.2 hA.1 hA.2⟩

/-- Every write of the span loop is either the left color (zero-width span) or
an interpolation of the two span colors at some `t ∈ [0,1]`. -/
theorem spanGo_color (y xl xr : ℤ) (cl cr : ℕ) :
    ∀ (n : ℕ) (x : ℤ) (w : Write), xl ≤ x → x + (n : ℤ) ≤ xr + 1 →
      w ∈ spanGo y xl xr cl cr n x →
      w.2.2 = cl ∨ ∃ t : ℚ, 0 ≤ t ∧ t ≤ 1 ∧ w.2.2 = interpolateColor cl cr t := by
  intro n
  induction n with
  | zero => intro x w _ _ hw; simp [spanGo] at hw
  | succ m ih =>
    intro x w hx hxn hw
    unfold spanGo at hw
    rcases List.mem_cons.mp hw with h | h
    · by_cases hxr : xr = xl
      · rw [if_pos hxr] at h
        rw [h]
        exact Or.inl rfl
      · rw [if_neg hxr] at h
        right
        refine ⟨((x - xl : ℤ) : ℚ) / ((xr - xl : ℤ) : ℚ), ?_, ?_, by rw [h]⟩
        · apply div_nonneg
          · exact_mod_cast (by omega : (0 : ℤ) ≤ x - xl)
          · exact_mod_cast (by push_cast at hxn; omega : (0 : ℤ) ≤ xr - xl)
        · rw [div_le_one (by exact_mod_cast (by push_cast at hxn; omega : (0 : ℤ) < xr - xl))]
          exact_mod_cast (by push_cast at hxn; omega : x - xl ≤ xr - xl)
    · exact ih (x + 1) w (by omega) (by push_cast at hxn ⊢; omega) h

theorem spanWrites_color (y xl xr : ℤ) (cl cr : ℕ) (w : Write)
    (hw : w ∈ spanWrites y xl xr cl cr) :
    w.2.2 = cl ∨ ∃ t : ℚ, 0 ≤ t ∧ t ≤ 1 ∧ w.2.2 = interpolateColor cl cr t := by
  unfold spanWrites at hw
  rcases le_or_lt xl xr with hle | hlt
  · exact spanGo_color y xl xr cl cr _ xl w le_rfl (by omega) hw
  · rw [show (xr - xl + 1).toNat = 0 by omega] at hw
    simp [spanGo] at hw

/-- Every write of a scanline body carries a color inside the envelope of the
three reference colors, provided the four edge vertices do and the scanline
lies inside both the long edge and the active short edge. -/
theorem scanlineBody_color (cA cB cC : ℕ) (v0 v2 vs ve : Vertex) (y : ℤ)
    (h0 : colorInRange3 cA cB cC v0.color = true)
    (h2 : colorInRange3 cA cB cC v2.color = true)
    (hs : colorInRange3 cA cB cC vs.color = true)
    (he : colorInRange3 cA cB cC ve.color = true)
    (hy0 : v0.y ≤ y) (hy2 : y ≤ v2.y) (hlt : v0.y < v2.y)
    (hys : vs.y ≤ y) (hye : y ≤ ve.y) (hlts : vs.y < ve.y)
    (w : Write) (hw : w ∈ scanlineBody v0 v2 y vs ve) :
    colorInRange3 cA cB cC w.2.2 = true := by
  have htL0 : (0 : ℚ) ≤ ((y - v0.y : ℤ) : ℚ) / ((v2.y - v0.y : ℤ) : ℚ) := by
    apply div_nonneg
    · exact_mod_cast (by omega : (0 : ℤ) ≤ y - v0.y)
    · exact_mod_cast (by omega : (0 : ℤ) ≤ v2.y - v0.y)
  have htL1 : ((y - v0.y : ℤ) : ℚ) / ((v2.y - v0.y : ℤ) : ℚ) ≤ 1 := by
    rw [div_le_one (by exact_mod_cast (by omega : (0 : ℤ) < v2.y - v0.y))]
    exact_mod_cast (by omega : y - v0.y ≤ v2.y - v0.y)
  have htS0 : (0 : ℚ) ≤ ((y - vs.y : ℤ) : ℚ) / ((ve.y - vs.y : ℤ) : ℚ) := by
    apply div_nonneg
    · exact_mod_cast (by omega : (0 : ℤ) ≤ y - vs.y)
    · exact_mod_cast (by omega : (0 : ℤ) ≤ ve.y - vs.y)
  have htS1 : ((y - vs.y : ℤ) : ℚ) / ((ve.y - vs.y : ℤ) : ℚ) ≤ 1 := by
    rw [div_le_one (by exact_mod_cast (by omega : (0 : ℤ) < ve.y - vs.y))]
    exact_mod_cast (by omega : y - vs.y ≤ ve.y - vs.y)
  have hL : colorInRange3 cA cB cC
      (interpolateColor v0.color v2.color (((y - v0.y : ℤ) : ℚ) / ((v2.y - v0.y : ℤ) : ℚ))) =
      true := colorInRange3_interp cA cB cC _ _ _ htL0 htL1 h0 h2
  have hS : colorInRange3 cA cB cC
      (interpolateColor vs.color ve.color (((y - vs.y : ℤ) : ℚ) / ((ve.y - vs.y : ℤ) : ℚ))) =
      true := colorInRange3_interp cA cB cC _ _ _ htS0 htS1 hs he
  simp only [scanlineBody] at hw
  rcases spanWrites_color _ _ _ _ _ w hw with hcl | ⟨t, ht0, ht1, hct⟩
  · rw [hcl]
    split
    · exact hL
    · exact hS
  · rw [hct]
    apply colorInRange3_interp cA cB cC _ _ t ht0 ht1 <;> split
    · exact hL
    · exact hS
    · exact hS
    · exact hL

/-- Per-scanline version of the envelope property, for sorted vertices. -/
theorem scanlineWrites_color (cA cB cC : ℕ) (v0 v1 v2 : Vertex) (y : ℤ)
    (h0 : colorInRange3 cA cB cC v0.color = true)
    (h1 : colorInRange3 cA cB cC v1.color = true)
    (h2 : colorInRange3 cA cB cC v2.color = true)
    (hy0 : v0.y ≤ y) (hy2 : y ≤ v2.y) (hlt : v0.y < v2.y)
    (hmid1 : v0.y ≤ v1.y) (hmid2 : v1.y ≤ v2.y)
    (w : Write) (hw : w ∈ scanlineWrites v0 v1 v2 y) :
    colorInRange3 cA cB cC w.2.2 = true := by
  unfold scanlineWrites at hw
  by_cases htop : y < v1.y
  · rw [if_pos htop] at hw
    by_cases hflat : v1.y = v0.y
    · rw [if_pos hflat] at hw
      simp at hw
    · rw [if_neg hflat] at hw
      exact scanlineBody_color cA cB cC v0 v2 v0 v1 y h0 h2 h0 h1 hy0 hy2 hlt hy0
        (by omega) (by omega) w hw
  · rw [if_neg htop] at hw
    by_cases hflat : v2.y = v1.y
    · rw [if_pos hflat] at hw
      simp at hw
    · rw [if_neg hflat] at hw
      exact scanlineBody_color cA cB cC v0 v2 v1 v2 y h0 h2 h1 h2 hy0 hy2 hlt
        (by omega) hy2 (by omega) w hw

/-- Every pixel write of `fillTriangle` carries a color whose four channels
lie within the min/max envelope of the corresponding channels of the three
vertex colors. -/
theorem fillTriangle_colors_in_range (u0 u1 u2 : Vertex) (w : Write)
    (hw : w ∈ fillTriangleWrites u0 u1 u2) :
    colorInRange3 u0.color u1.color u2.color w.2.2 = true := by
  simp only [fillTriangleWrites] at hw
  split at hw
  · simp at hw
  · rename_i hne
    obtain ⟨k, hk, hmem⟩ := scanWrites_mem _ _ _ w hw
    obtain ⟨hm1, hm2, hm3⟩ := sortByY_mem u0 u1 u2
    have hc1 : colorInRange3 u0.color u1.color u2.color (sortByY u0 u1 u2).1.color = true := by
      rcases hm1 with h | h | h <;> rw [h]
      · exact colorInRange3_fst ..
      · exact colorInRange3_snd ..
      · exact colorInRange3_thd ..
    have hc2 : colorInRange3 u0.color u1.color u2.color (sortByY u0 u1 u2).2.1.color = true := by
      rcases hm2 with h | h | h <;> rw [h]
      · exact colorInRange3_fst ..
      · exact colorInRange3_snd ..
      · exact colorInRange3_thd ..
    have hc3 : colorInRange3 u0.color u1.color u2.color (sortByY u0 u1 u2).2.2.color = true := by
      rcases hm3 with h | h | h <;> rw [h]
      · exact colorInRange3_fst ..
      · exact colorInRange3_snd ..
      · exact colorInRange3_thd ..
    have hle := sortByY_le u0 u1 u2
    exact scanlineWrites_color u0.color u1.color u2.color _ _ _ _ hc1 hc2 hc3
      (by omega) (by omega) (by omega) hle.1 hle.2 w hmem

theorem spanWrites_single (y xl : ℤ) (cl cr : ℕ) : spanWrites y xl xl cl cr = [(xl, y, cl)] := by
  unfold spanWrites
  rw [show (xl - xl + 1).toNat = 1 by omega]
  unfold spanGo spanGo
  rw [if_pos rfl]

/-- On the topmost scanline of a top half both edges start at `v0.x` with
fraction 0, so exactly the apex pixel is written, in the apex color. -/
theorem scanlineBody_top_row (v0 v2 v1 : Vertex) (hc : v0.color < 2 ^ 32) :
    scanlineBody v0 v2 v0.y v0 v1 = [(v0.x, v0.y, v0.color)] := by
  have ht1 : ((v0.y - v0.y : ℤ) : ℚ) / ((v2.y - v0.y : ℤ) : ℚ) = 0 := by
    rw [show v0.y - v0.y = 0 by omega]
    simp
  have ht2 : ((v0.y - v0.y : ℤ) : ℚ) / ((v1.y - v0.y : ℤ) : ℚ) = 0 := by
    rw [show v0.y - v0.y = 0 by omega]
    simp
  simp only [scanlineBody, ht1, ht2, mul_zero, add_zero]
  rw [min_self, max_self, if_neg (lt_irrefl _), ftrunc_intCast]
  rw [interpolateColor_zero v0.color v1.color hc]
  exact spanWrites_single _ _ _ _

theorem defaultRow100 :
    scanlineWrites ⟨250, 100, RED⟩ ⟨100, 400, GREEN⟩ ⟨400, 400, BLUE⟩ 100 =
      [(250, 100, RED)] := by
  unfold scanlineWrites
  rw [if_pos (by norm_num : (100 : ℤ) < (⟨100, 400, GREEN⟩ : Vertex).y)]
  rw [if_neg (by norm_num : ¬(⟨100, 400, GREEN⟩ : Vertex).y = (⟨250, 100, RED⟩ : Vertex).y)]
  exact scanlineBody_top_row ⟨250, 100, RED⟩ ⟨400, 400, BLUE⟩ ⟨100, 400, GREEN⟩
    (by norm_num [RED])

theorem defaultRow400 :
    scanlineWrites ⟨250, 100, RED⟩ ⟨100, 400, GREEN⟩ ⟨400, 400, BLUE⟩ 400 = [] := by
  unfold scanlineWrites
  rw [if_neg (by norm_num : ¬(400 : ℤ) < (⟨100, 400, GREEN⟩ : Vertex).y)]
  rw [if_pos (by norm_num : (⟨400, 400, BLUE⟩ : Vertex).y = (⟨100, 400, GREEN⟩ : Vertex).y)]

theorem defaultTriangle_trace :
    fillTriangleWrites ⟨250, 100, RED⟩ ⟨100, 400, GREEN⟩ ⟨400, 400, BLUE⟩ =
      scanWrites (scanlineWrites ⟨250, 100, RED⟩ ⟨100, 400, GREEN⟩ ⟨400, 400, BLUE⟩) 100 301 := by
  have hsort : sortByY (⟨250, 100, RED⟩ : Vertex) ⟨100, 400, GREEN⟩ ⟨400, 400, BLUE⟩ =
      (⟨250, 100, RED⟩, ⟨100, 400, GREEN⟩, ⟨400, 400, BLUE⟩) := by
    unfold sortByY
    norm_num
  simp only [fillTriangleWrites, hsort]
  norm_num
  rfl

theorem scanWrites_succ (f : ℤ → List Write) (y : ℤ) (n : ℕ) :
    scanWrites f y (n + 1) = f y ++ scanWrites f (y + 1) n := rfl

theorem fillTriangle_def (s : Screen) (u0 u1 u2 : Vertex) :
    fillTriangle s u0 u1 u2 = applyWrites s (fillTriangleWrites u0 u1 u2) := rfl

theorem defaultTriangle_mem (w : Write)
    (hw : w ∈ fillTriangleWrites ⟨250, 100, RED⟩ ⟨100, 400, GREEN⟩ ⟨400, 400, BLUE⟩) :
    ∃ k : ℕ, k < 301 ∧
      w ∈ scanlineWrites ⟨250, 100, RED⟩ ⟨100, 400, GREEN⟩ ⟨400, 400, BLUE⟩ (100 + (k : ℤ)) := by
  rw [defaultTriangle_trace] at hw
  exact scanWrites_mem _ _ _ w hw

/-- Writes of the default triangle never reach linear index 200000 (the start
of row 400): the sorted triangle's bottom half is flat, so row 400 is skipped
and every written row is at most 399. -/
theorem defaultFill_row400_pixels (i : ℕ) (hi : 200000 ≤ i) :
    (fillTriangle initialScreen ⟨250, 100, RED⟩ ⟨100, 400, GREEN⟩ ⟨400, 400, BLUE⟩).pixels i =
      0x000000FF := by
  rw [fillTriangle_def]
  rw [applyWrites_miss]
  · rfl
  · intro w hw
    obtain ⟨k, hk, hmem⟩ := defaultTriangle_mem w hw
    have hrow := scanlineWrites_row _ _ _ _ w hmem
    have hkne : k ≠ 300 := by
      intro hk300
      rw [hk300] at hmem
      rw [show (100 : ℤ) + ((300 : ℕ) : ℤ) = 400 by norm_num] at hmem
      rw [defaultRow400] at hmem
      simp at hmem
    rw [Bool.eq_false_iff]
    intro hh
    rw [hits_iff] at hh
    obtain ⟨ha, hb, hc, hd, he⟩ := hh
    simp only [initialScreen] at hb hd he
    omega

theorem defaultFill_pixel_50250 :
    (fillTriangle initialScreen ⟨250, 100, RED⟩ ⟨100, 400, GREEN⟩ ⟨400, 400, BLUE⟩).pixels 50250 =
      RED := by
  rw [fillTriangle_def]
  rw [defaultTriangle_trace, show (301 : ℕ) = 300 + 1 from rfl, scanWrites_succ,
    applyWrites_append]
  rw [applyWrites_miss]
  · rw [defaultRow100]
    show (setPixel initialScreen 250 100 RED).pixels 50250 = RED
    rw [setPixel_pixels]
    rw [if_pos (by decide : hits initialScreen.width initialScreen.height 50250
      ((250 : ℤ), (100 : ℤ), RED) = true)]
  · intro w hw
    obtain ⟨k, hk, hmem⟩ := scanWrites_mem _ _ _ w hw
    have hrow := scanlineWrites_row _ _ _ _ w hmem
    rw [Bool.eq_false_iff]
    intro hh
    rw [hits_iff] at hh
    obtain ⟨ha, hb, hc, hd, he⟩ := hh
    rw [applyWrites_width] at hb he
    rw [applyWrites_height] at hd
    simp only [initialScreen] at hb hd he
    omega

/-- Claim C1 counterexample: after `fillTriangle` of the default triangle on
the freshly initialized buffer, the pixel at `(100, 400)` (linear index
`400*500 + 100 = 200100`) is NOT `GREEN`.  The sorted triangle has
`v1.y = v2.y = 400`, so the bottom half is flat and the scan loop skips row
400 (`if (v2.y == v1.y) continue;`), leaving the background color there. -/
theorem fillTriangle_default_not_green :
    (fillTriangle initialScreen ⟨250, 100, RED⟩ ⟨100, 400, GREEN⟩ ⟨400, 400, BLUE⟩).pixels 200100 ≠
      GREEN := by
  rw [defaultFill_row400_pixels 200100 (by norm_num)]
  norm_num [GREEN]

/-- Claim C1 (amended): for the default triangle on the freshly initialized
buffer, the pixel at `(250, 100)` (index `100*500 + 250 = 50250`) is exactly
`RED`; the pixels at `(100, 400)` and `(400, 400)` (indices 200100 and 200400)
keep the initial background `0x000000FF` because the flat bottom row 400 is
skipped; and every write issued by the fill carries a color whose four
channels lie between the min and max of the corresponding channels of the
three vertex colors. -/
theorem fillTriangle_default_triangle :
    (fillTriangle initialScreen ⟨250, 100, RED⟩ ⟨100, 400, GREEN⟩ ⟨400, 400, BLUE⟩).pixels 50250 =
      RED ∧
    (fillTriangle initialScreen ⟨250, 100, RED⟩ ⟨100, 400, GREEN⟩ ⟨400, 400, BLUE⟩).pixels 200100 =
      0x000000FF ∧
    (fillTriangle initialScreen ⟨250, 100, RED⟩ ⟨100, 400, GREEN⟩ ⟨400, 400, BLUE⟩).pixels 200400 =
      0x000000FF ∧
    (fillTriangleWrites ⟨250, 100, RED⟩ ⟨100, 400, GREEN⟩ ⟨400, 400, BLUE⟩).all
      (fun w => colorInRange3 RED GREEN BLUE w.2.2) = true :=
  ⟨defaultFill_pixel_50250, defaultFill_row400_pixels 200100 (by norm_num),
    defaultFill_row400_pixels 200400 (by norm_num),
    List.all_eq_true.mpr fun w hw => fillTriangle_colors_in_range _ _ _ w hw⟩
